import Mathlib

/-!
Verification development for the RCA retrieval pipeline
(`src/rca/search_root_cause.py`).

The Python source is shallowly embedded here.  Text is modelled as
`List Char` (Python `str` is handled at the API boundary via `String`),
Python `float` arithmetic as real arithmetic over `ℝ`, Python `int` as
`Nat`/`ℤ`, and `datetime` values as proleptic-Gregorian calendar dates
(`Date`) compared through their day ordinal.  Uncaught Python exceptions
are modelled with `Except String`.  Character predicates cover the ASCII
fragment that the corpus and the claims exercise.
-/

/-- Whitespace characters of Python's `str.split` / `str.strip` / `\s`
(ASCII fragment). -/
def isPySpace (c : Char) : Bool :=
  c = ' ' || c = '\t' || c = '\n' || c = '\r' || c = '\x0b' || c = '\x0c'

/-- Lower-casing of a single character, the ASCII fragment of Python's
`str.lower`. -/
def toLowerC (c : Char) : Char :=
  match c with
  | 'A' => 'a' | 'B' => 'b' | 'C' => 'c' | 'D' => 'd' | 'E' => 'e' | 'F' => 'f'
  | 'G' => 'g' | 'H' => 'h' | 'I' => 'i' | 'J' => 'j' | 'K' => 'k' | 'L' => 'l'
  | 'M' => 'm' | 'N' => 'n' | 'O' => 'o' | 'P' => 'p' | 'Q' => 'q' | 'R' => 'r'
  | 'S' => 's' | 'T' => 't' | 'U' => 'u' | 'V' => 'v' | 'W' => 'w' | 'X' => 'x'
  | 'Y' => 'y' | 'Z' => 'z' | c => c

/-- Lower-casing of a character list (Python `str.lower`). -/
def toLowerL (l : List Char) : List Char := l.map toLowerC

/-- Hexadecimal digit test, the character class `[a-fA-F0-9]` of the
formatting-marker regex. -/
def isHexDigitC (c : Char) : Bool :=
  ('0' ≤ c && c ≤ '9') || ('a' ≤ c && c ≤ 'f') || ('A' ≤ c && c ≤ 'F')

/-- Accumulator worker for `pyWords`: `cur` holds the reversed current
word. -/
def pyWordsAcc : List Char → List Char → List (List Char)
  | [], cur => if cur = [] then [] else [cur.reverse]
  | c :: cs, cur =>
    if isPySpace c then
      if cur = [] then pyWordsAcc cs [] else cur.reverse :: pyWordsAcc cs []
    else
      pyWordsAcc cs (c :: cur)

/-- Python `str.split()` with no argument: split on runs of whitespace,
dropping empty pieces. -/
def pyWords (l : List Char) : List (List Char) := pyWordsAcc l []

/-- Python `' '.join(ws)`. -/
def joinSp : List (List Char) → List Char
  | [] => []
  | [w] => w
  | w :: ws => w ++ ' ' :: joinSp ws

/-- Matcher for the regex `#[a-fA-F0-9]{6}\s*\nINLINE` anchored at the head
of `l`: `some rest` leaves the characters after the match.  The regex can
only match with the whole whitespace run after the hex digits ending in the
newline, immediately followed by `INLINE`, so the greedy `\s*` needs no
backtracking. -/
def tryMarker (l : List Char) : Option (List Char) :=
  match l with
  | [] => none
  | c :: rest =>
    if c = '#' ∧ (rest.take 6).length = 6 ∧ (∀ x ∈ rest.take 6, isHexDigitC x) ∧
        ((rest.drop 6).takeWhile isPySpace).getLast? = some '\n' ∧
        ((rest.drop 6).dropWhile isPySpace).take 6 = ['I', 'N', 'L', 'I', 'N', 'E'] then
      some (((rest.drop 6).dropWhile isPySpace).drop 6)
    else none

/-- Worker for `re.sub(r'#[a-fA-F0-9]{6}\s*\nINLINE', '', text)`: leftmost,
non-overlapping matches are removed.  The fuel argument (instantiated with
the list's length, which bounds the number of steps) keeps the recursion
structural. -/
def removeMarkersAux : Nat → List Char → List Char
  | 0, l => l
  | _ + 1, [] => []
  | fuel + 1, c :: cs =>
    match tryMarker (c :: cs) with
    | some rest => removeMarkersAux fuel rest
    | none => c :: removeMarkersAux fuel cs

/-- Removal of all formatting-marker occurrences (the `re.sub` call of
`clean_text`). -/
def removeMarkersL (l : List Char) : List Char := removeMarkersAux l.length l

/-- Character-list core of `clean_text`: remove markers, then
`' '.join(text.split())`. -/
def cleanChars (l : List Char) : List Char := joinSp (pyWords (removeMarkersL l))

/-- The Text Normalizer `clean_text` of `search_root_cause.py`. -/
def clean_text (s : String) : String := String.mk (cleanChars s.data)

/-! ### Lemmas about words and whitespace normalisation -/

theorem pyWordsAcc_wellformed (l : List Char) :
    ∀ cur, (∀ c ∈ cur, isPySpace c = false) →
      ∀ w ∈ pyWordsAcc l cur, w ≠ [] ∧ ∀ c ∈ w, isPySpace c = false := by
  induction l with
  | nil =>
    intro cur hcur w hw
    by_cases h : cur = []
    · simp [pyWordsAcc, h] at hw
    · simp [pyWordsAcc, h] at hw
      subst hw
      refine ⟨by simpa using h, ?_⟩
      intro c hc
      exact hcur c (List.mem_reverse.mp hc)
  | cons c cs ih =>
    intro cur hcur w hw
    by_cases hsp : isPySpace c
    · by_cases h : cur = []
      · simp only [pyWordsAcc, hsp, if_true, h, if_pos rfl] at hw
        exact ih [] (by simp) w hw
      · simp only [pyWordsAcc, hsp, if_true, if_neg h, List.mem_cons] at hw
        rcases hw with hw | hw
        · subst hw
          refine ⟨by simpa using h, ?_⟩
          intro x hx
          exact hcur x (List.mem_reverse.mp hx)
        · exact ih [] (by simp) w hw
    · simp only [pyWordsAcc, hsp, if_false, Bool.false_eq_true] at hw
      refine ih (c :: cur) ?_ w hw
      intro x hx
      rcases List.mem_cons.mp hx with hx | hx
      · subst hx; simpa using hsp
      · exact hcur x hx

theorem pyWords_wellformed (l : List Char) :
    ∀ w ∈ pyWords l, w ≠ [] ∧ ∀ c ∈ w, isPySpace c = false :=
  pyWordsAcc_wellformed l [] (by simp)

theorem pyWordsAcc_append (w : List Char) (hw : ∀ c ∈ w, isPySpace c = false) :
    ∀ rest cur, pyWordsAcc (w ++ rest) cur = pyWordsAcc rest (w.reverse ++ cur) := by
  induction w with
  | nil => intro rest cur; simp
  | cons c cs ih =>
    intro rest cur
    have hc : isPySpace c = false := hw c (by simp)
    have hcs : ∀ x ∈ cs, isPySpace x = false := fun x hx => hw x (by simp [hx])
    simp only [List.cons_append, pyWordsAcc, hc, if_false, Bool.false_eq_true,
      List.reverse_cons, List.append_assoc, List.singleton_append]
    exact ih hcs rest (c :: cur)

theorem pyWords_joinSp (ws : List (List Char))
    (h : ∀ w ∈ ws, w ≠ [] ∧ ∀ c ∈ w, isPySpace c = false) :
    pyWords (joinSp ws) = ws := by
  induction ws with
  | nil => rfl
  | cons w vs ih =>
    have hw := h w (by simp)
    cases vs with
    | nil =>
      show pyWordsAcc (joinSp [w]) [] = [w]
      have : joinSp [w] = w ++ [] := by simp [joinSp]
      rw [this, pyWordsAcc_append w hw.2]
      simp [pyWordsAcc, hw.1]
    | cons v vs' =>
      show pyWordsAcc (joinSp (w :: v :: vs')) [] = w :: v :: vs'
      have : joinSp (w :: v :: vs') = w ++ ' ' :: joinSp (v :: vs') := rfl
      rw [this, pyWordsAcc_append w hw.2]
      have hne : ¬(w.reverse ++ [] = []) := by simpa using hw.1
      have hsp : isPySpace ' ' = true := rfl
      simp only [pyWordsAcc, hsp, if_true, if_neg hne]
      have := ih (fun x hx => h x (by simp [hx]))
      simp only [pyWords] at this
      simp [this]

theorem mem_joinSp {c : Char} {ws : List (List Char)} (h : c ∈ joinSp ws) :
    c = ' ' ∨ ∃ w ∈ ws, c ∈ w := by
  induction ws with
  | nil => simp [joinSp] at h
  | cons w vs ih =>
    cases vs with
    | nil =>
      simp only [joinSp] at h
      exact Or.inr ⟨w, by simp, h⟩
    | cons v vs' =>
      simp only [joinSp, List.mem_append, List.mem_cons] at h
      rcases h with h | h | h
      · exact Or.inr ⟨w, by simp, h⟩
      · exact Or.inl h
      · rcases ih h with h | ⟨u, hu, hc⟩
        · exact Or.inl h
        · exact Or.inr ⟨u, by simp [hu], hc⟩

theorem tryMarker_newline {l r : List Char} (h : tryMarker l = some r) : '\n' ∈ l := by
  match l with
  | [] => simp [tryMarker] at h
  | c :: rest =>
    simp only [tryMarker] at h
    split at h
    · rename_i hcond
      have hlast : ((rest.drop 6).takeWhile isPySpace).getLast? = some '\n' :=
        hcond.2.2.2.1
      have hmem0 : '\n' ∈ ((rest.drop 6).takeWhile isPySpace).getLast? := by
        simp [Option.mem_def, hlast]
      rcases List.mem_getLast?_eq_getLast hmem0 with ⟨hne, heq⟩
      have hmem : '\n' ∈ (rest.drop 6).takeWhile isPySpace := by
        rw [heq]; exact List.getLast_mem hne
      have h1 : '\n' ∈ rest.drop 6 := (List.takeWhile_sublist _).mem hmem
      have h2 : '\n' ∈ rest := (List.drop_sublist 6 rest).mem h1
      simp [h2]
    · simp at h

theorem removeMarkersAux_no_newline (fuel : Nat) :
    ∀ l : List Char, '\n' ∉ l → removeMarkersAux fuel l = l := by
  induction fuel with
  | zero => intro l _; rfl
  | succ n ih =>
    intro l hl
    match l with
    | [] => rfl
    | c :: cs =>
      have hnone : tryMarker (c :: cs) = none := by
        cases h : tryMarker (c :: cs) with
        | none => rfl
        | some r => exact absurd (tryMarker_newline h) hl
      simp only [removeMarkersAux, hnone]
      rw [ih cs (fun h => hl (by simp [h]))]

theorem no_newline_cleanChars (l : List Char) : '\n' ∉ cleanChars l := by
  intro h
  rcases mem_joinSp h with h | ⟨w, hw, hc⟩
  · exact absurd h (by decide)
  · have := (pyWords_wellformed _ w hw).2 '\n' hc
    simp [isPySpace] at this

theorem cleanChars_idem (l : List Char) : cleanChars (cleanChars l) = cleanChars l := by
  have h1 : removeMarkersL (cleanChars l) = cleanChars l :=
    removeMarkersAux_no_newline _ _ (no_newline_cleanChars l)
  show joinSp (pyWords (removeMarkersL (cleanChars l))) = cleanChars l
  rw [h1]
  show joinSp (pyWords (joinSp (pyWords (removeMarkersL l)))) = cleanChars l
  rw [pyWords_joinSp _ (pyWords_wellformed _)]
  rfl

/-- C9: The Text Normalizer is idempotent: normalising twice equals
normalising once. -/
theorem clean_text_idempotent (s : String) : clean_text (clean_text s) = clean_text s := by
  show String.mk (cleanChars (String.mk (cleanChars s.data)).data) = clean_text s
  have : (String.mk (cleanChars s.data)).data = cleanChars s.data := rfl
  rw [this, cleanChars_idem]
  rfl

/-! ### Section Matcher -/

/-- Test that `needle` is a prefix of the second list (character-wise). -/
def startsWithL : List Char → List Char → Bool
  | [], _ => true
  | _ :: _, [] => false
  | a :: as, b :: bs => a = b && startsWithL as bs

/-- Python's substring test `needle in hay` on strings. -/
def containsL (needle : List Char) : List Char → Bool
  | [] => startsWithL needle []
  | c :: t => startsWithL needle (c :: t) || containsL needle t

/-- The word-scan loop of `search_text_in_section`: the first index `i` with
`' '.join(words[i:i+len(searchWords)]) == searchTerms`, over
`range(len(words) - len(searchWords) + 1)` (truncated subtraction models
Python's empty range for a negative bound). -/
def phraseIdx (words : List (List Char)) (searchWords : List (List Char))
    (terms : List Char) : Option Nat :=
  (List.range (words.length + 1 - searchWords.length)).find?
    (fun i => decide (joinSp ((words.drop i).take searchWords.length) = terms))

/-- The Section Matcher `search_text_in_section` of `search_root_cause.py`.
The start bound `i - 10` is Python's `max(0, i - 10)` (truncated
subtraction), the end bound is `min(len(words), i + len(search_words) + 10)`,
and the context is wrapped in literal ellipses. -/
def search_text_in_section (sectionText query : String) : Bool × String :=
  if sectionText = "" ∨ query = "" then (false, "")
  else
    let cleanSection := toLowerL (cleanChars sectionText.data)
    let searchTerms := toLowerL (cleanChars query.data)
    if containsL searchTerms cleanSection then
      let words := pyWords cleanSection
      let searchWords := pyWords searchTerms
      match phraseIdx words searchWords searchTerms with
      | some i =>
        let start := i - 10
        let stop := min words.length (i + searchWords.length + 10)
        (true, String.mk (['.', '.', '.'] ++
          joinSp ((words.drop start).take (stop - start)) ++ ['.', '.', '.']))
      | none => (false, "")
    else (false, "")

/-- Occurrence of `needle` as a contiguous run of whole words inside `hay`:
the spec's "appears as a contiguous phrase" at the word level. -/
def wordsOccur (needle hay : List (List Char)) : Prop :=
  ∃ a b, hay = a ++ needle ++ b

theorem startsWithL_append (n b : List Char) : startsWithL n (n ++ b) = true := by
  induction n with
  | nil => rfl
  | cons a as ih => simp [startsWithL, ih]

theorem containsL_of_startsWith {n h : List Char} (hs : startsWithL n h = true) :
    containsL n h = true := by
  cases h with
  | nil => exact hs
  | cons c t => simp [containsL, hs]

theorem containsL_of_parts (n a b : List Char) : containsL n (a ++ n ++ b) = true := by
  induction a with
  | nil => exact containsL_of_startsWith (startsWithL_append n b)
  | cons c a' ih =>
    have h1 : (c :: a') ++ n ++ b = c :: (a' ++ n ++ b) := by simp
    have h2 : containsL n (c :: (a' ++ n ++ b)) =
        (startsWithL n (c :: (a' ++ n ++ b)) || containsL n (a' ++ n ++ b)) := rfl
    rw [h1, h2, ih, Bool.or_true]

theorem isPySpace_toLowerC (c : Char) : isPySpace (toLowerC c) = isPySpace c := by
  unfold toLowerC
  split
  all_goals rfl

theorem toLowerL_joinSp (ws : List (List Char)) :
    toLowerL (joinSp ws) = joinSp (ws.map toLowerL) := by
  induction ws with
  | nil => rfl
  | cons w vs ih =>
    cases vs with
    | nil => rfl
    | cons v vs' =>
      have hstep : joinSp ((w :: v :: vs').map toLowerL) =
          toLowerL w ++ ' ' :: joinSp ((v :: vs').map toLowerL) := rfl
      have hstep2 : joinSp (w :: v :: vs') = w ++ ' ' :: joinSp (v :: vs') := rfl
      rw [hstep2, hstep, ← ih]
      simp [toLowerL, show toLowerC ' ' = ' ' from rfl]

theorem wellformed_map_toLower {ws : List (List Char)}
    (h : ∀ w ∈ ws, w ≠ [] ∧ ∀ c ∈ w, isPySpace c = false) :
    ∀ w ∈ ws.map toLowerL, w ≠ [] ∧ ∀ c ∈ w, isPySpace c = false := by
  intro w hw
  rcases List.mem_map.mp hw with ⟨u, hu, rfl⟩
  rcases h u hu with ⟨hne, hsp⟩
  refine ⟨by simpa [toLowerL] using hne, ?_⟩
  intro c hc
  rcases List.mem_map.mp hc with ⟨d, hd, rfl⟩
  rw [isPySpace_toLowerC]
  exact hsp d hd

theorem normalized_cleanChars (l : List Char) :
    joinSp (pyWords (cleanChars l)) = cleanChars l := by
  show joinSp (pyWords (joinSp (pyWords (removeMarkersL l)))) = cleanChars l
  rw [pyWords_joinSp _ (pyWords_wellformed _)]
  rfl

theorem pyWords_lower_cleanChars (l : List Char) :
    pyWords (toLowerL (cleanChars l)) = (pyWords (cleanChars l)).map toLowerL := by
  conv_lhs => rw [← normalized_cleanChars l]
  rw [toLowerL_joinSp]
  exact pyWords_joinSp _ (wellformed_map_toLower (pyWords_wellformed _))

theorem normalized_lower_cleanChars (l : List Char) :
    joinSp (pyWords (toLowerL (cleanChars l))) = toLowerL (cleanChars l) := by
  rw [pyWords_lower_cleanChars, ← toLowerL_joinSp, normalized_cleanChars]

theorem joinSp_ne_nil {ws : List (List Char)}
    (h : ∀ w ∈ ws, w ≠ [] ∧ ∀ c ∈ w, isPySpace c = false) (hne : ws ≠ []) :
    joinSp ws ≠ [] := by
  match ws with
  | [] => exact absurd rfl hne
  | [w] => exact (h w (by simp)).1
  | w :: v :: vs =>
    show w ++ ' ' :: joinSp (v :: vs) ≠ []
    simp

theorem joinSp_cons (w : List Char) (vs : List (List Char)) :
    joinSp (w :: vs) = w ++ (if vs = [] then [] else ' ' :: joinSp vs) := by
  cases vs <;> simp [joinSp]

theorem spaceHeaded_of_tail (vs : List (List Char)) :
    (if vs = [] then ([] : List Char) else ' ' :: joinSp vs) = [] ∨
      ∃ u, (if vs = [] then ([] : List Char) else ' ' :: joinSp vs) = ' ' :: u := by
  by_cases h : vs = [] <;> simp [h]

theorem takeWhile_word_append (w : List Char) (hw : ∀ c ∈ w, isPySpace c = false)
    (t : List Char) (ht : t = [] ∨ ∃ u, t = ' ' :: u) :
    (w ++ t).takeWhile (fun c => !isPySpace c) = w := by
  induction w with
  | nil =>
    rcases ht with h | ⟨u, h⟩ <;> subst h
    · simp
    · rw [List.nil_append, List.takeWhile_cons,
        show (!isPySpace ' ') = false from rfl]
      simp
  | cons c cs ih =>
    have hc : isPySpace c = false := hw c (by simp)
    have := ih (fun x hx => hw x (by simp [hx]))
    simp only [List.cons_append, List.takeWhile_cons, hc]
    simpa using this

theorem dropWhile_word_append (w : List Char) (hw : ∀ c ∈ w, isPySpace c = false)
    (t : List Char) (ht : t = [] ∨ ∃ u, t = ' ' :: u) :
    (w ++ t).dropWhile (fun c => !isPySpace c) = t := by
  induction w with
  | nil =>
    rcases ht with h | ⟨u, h⟩ <;> subst h
    · simp
    · rw [List.nil_append, List.dropWhile_cons,
        show (!isPySpace ' ') = false from rfl]
      simp
  | cons c cs ih =>
    have hc : isPySpace c = false := hw c (by simp)
    have := ih (fun x hx => hw x (by simp [hx]))
    simp only [List.cons_append, List.dropWhile_cons, hc]
    simpa using this

theorem joinSp_inj : ∀ {ws vs : List (List Char)},
    (∀ w ∈ ws, w ≠ [] ∧ ∀ c ∈ w, isPySpace c = false) →
    (∀ w ∈ vs, w ≠ [] ∧ ∀ c ∈ w, isPySpace c = false) →
    joinSp ws = joinSp vs → ws = vs := by
  intro ws
  induction ws with
  | nil =>
    intro vs _ hv h
    cases vs with
    | nil => rfl
    | cons v vs' => exact absurd h.symm (joinSp_ne_nil hv (by simp))
  | cons w ws' ih =>
    intro vs hw hv h
    cases vs with
    | nil => exact absurd h (joinSp_ne_nil hw (by simp))
    | cons v vs' =>
      rw [joinSp_cons w ws', joinSp_cons v vs'] at h
      have hww := hw w (by simp)
      have hvv := hv v (by simp)
      have hwv : w = v := by
        have h1 := takeWhile_word_append w hww.2 _ (spaceHeaded_of_tail ws')
        have h2 := takeWhile_word_append v hvv.2 _ (spaceHeaded_of_tail vs')
        rw [← h1, ← h2, h]
      subst hwv
      have htails : (if ws' = [] then ([] : List Char) else ' ' :: joinSp ws') =
          (if vs' = [] then ([] : List Char) else ' ' :: joinSp vs') :=
        List.append_cancel_left h
      by_cases h1 : ws' = [] <;> by_cases h2 : vs' = []
      · rw [h1, h2]
      · rw [if_pos h1, if_neg h2] at htails; exact absurd htails.symm (by simp)
      · rw [if_neg h1, if_pos h2] at htails; exact absurd htails (by simp)
      · rw [if_neg h1, if_neg h2] at htails
        have : joinSp ws' = joinSp vs' := by
          injection htails
        rw [ih (fun x hx => hw x (by simp [hx])) (fun x hx => hv x (by simp [hx])) this]

theorem joinSp_append (xs ys : List (List Char)) (hys : ys ≠ []) :
    joinSp (xs ++ ys) = (if xs = [] then [] else joinSp xs ++ [' ']) ++ joinSp ys := by
  induction xs with
  | nil => simp
  | cons x xs' ih =>
    have hne : xs' ++ ys ≠ [] := by
      intro h
      exact hys (List.append_eq_nil.mp h).2
    rw [List.cons_append, joinSp_cons x (xs' ++ ys), if_neg hne, ih]
    by_cases h : xs' = []
    · subst h; simp [joinSp]
    · rw [if_neg h, if_neg (by simp [h] : ¬(x :: xs' = []))]
      rw [joinSp_cons x xs', if_neg h]
      simp

theorem containsL_nil (h : List Char) : containsL [] h = true := by
  cases h <;> simp [containsL, startsWithL]

theorem joinSp_infix (a n b : List (List Char)) (hn : n ≠ []) :
    ∃ x y, joinSp (a ++ n ++ b) = x ++ joinSp n ++ y := by
  cases b with
  | nil =>
    rw [List.append_nil]
    by_cases ha : a = []
    · subst ha; exact ⟨[], [], by simp⟩
    · rw [joinSp_append a n hn, if_neg ha]
      exact ⟨joinSp a ++ [' '], [], by simp⟩
  | cons t b' =>
    have hnb : n ++ t :: b' ≠ [] := by simp [hn]
    have h1 : joinSp (n ++ t :: b') = joinSp n ++ [' '] ++ joinSp (t :: b') := by
      rw [joinSp_append n (t :: b') (by simp), if_neg hn]
    by_cases ha : a = []
    · subst ha
      refine ⟨[], [' '] ++ joinSp (t :: b'), ?_⟩
      simp only [List.nil_append]
      rw [h1]
      simp
    · rw [List.append_assoc, joinSp_append a (n ++ t :: b') hnb, if_neg ha, h1]
      exact ⟨joinSp a ++ [' '], [' '] ++ joinSp (t :: b'), by simp⟩

/-- C3: The Section Matcher reports a match exactly when the normalised,
case-folded query occurs as a contiguous run of whole words inside the
normalised, case-folded section text; an empty section text or an empty
query never matches. -/
theorem search_text_in_section_match_iff (sectionText query : String) :
    (search_text_in_section sectionText query).1 = true ↔
      sectionText ≠ "" ∧ query ≠ "" ∧
        wordsOccur (pyWords (toLowerL (cleanChars query.data)))
          (pyWords (toLowerL (cleanChars sectionText.data))) := by
  constructor
  · intro h
    by_cases hg : sectionText = "" ∨ query = ""
    · rw [search_text_in_section, if_pos hg] at h
      simp at h
    · push_neg at hg
      refine ⟨hg.1, hg.2, ?_⟩
      rw [search_text_in_section, if_neg (not_or.mpr ⟨hg.1, hg.2⟩)] at h
      simp only at h
      by_cases hcont : containsL (toLowerL (cleanChars query.data))
          (toLowerL (cleanChars sectionText.data))
      · rw [if_pos hcont] at h
        cases hp : phraseIdx (pyWords (toLowerL (cleanChars sectionText.data)))
            (pyWords (toLowerL (cleanChars query.data)))
            (toLowerL (cleanChars query.data)) with
        | none => rw [hp] at h; simp at h
        | some i =>
          have hpred := List.find?_some hp
          have hjoin : joinSp (((pyWords (toLowerL (cleanChars sectionText.data))).drop i).take
              (pyWords (toLowerL (cleanChars query.data))).length) =
              toLowerL (cleanChars query.data) := of_decide_eq_true hpred
          have hslice : ((pyWords (toLowerL (cleanChars sectionText.data))).drop i).take
              (pyWords (toLowerL (cleanChars query.data))).length =
              pyWords (toLowerL (cleanChars query.data)) := by
            refine joinSp_inj ?_ (pyWords_wellformed _) ?_
            · intro w hw
              exact pyWords_wellformed _ w
                (List.mem_of_mem_drop (List.mem_of_mem_take hw))
            · rw [hjoin, normalized_lower_cleanChars]
          refine ⟨(pyWords (toLowerL (cleanChars sectionText.data))).take i,
            (pyWords (toLowerL (cleanChars sectionText.data))).drop
              ((pyWords (toLowerL (cleanChars query.data))).length + i), ?_⟩
          have h2 : (pyWords (toLowerL (cleanChars sectionText.data))).drop i =
              pyWords (toLowerL (cleanChars query.data)) ++
                (pyWords (toLowerL (cleanChars sectionText.data))).drop
                  ((pyWords (toLowerL (cleanChars query.data))).length + i) := by
            conv_lhs => rw [← List.take_append_drop
              ((pyWords (toLowerL (cleanChars query.data))).length)
              ((pyWords (toLowerL (cleanChars sectionText.data))).drop i)]
            rw [hslice, List.drop_drop, Nat.add_comm]
          conv_lhs => rw [← List.take_append_drop i
            (pyWords (toLowerL (cleanChars sectionText.data))), h2]
          rw [List.append_assoc]
      · rw [if_neg hcont] at h
        simp at h
  · rintro ⟨h1, h2, a, b, hab⟩
    rw [search_text_in_section, if_neg (not_or.mpr ⟨h1, h2⟩)]
    simp only
    have hterms : joinSp (pyWords (toLowerL (cleanChars query.data))) =
        toLowerL (cleanChars query.data) := normalized_lower_cleanChars _
    have hsect : joinSp (pyWords (toLowerL (cleanChars sectionText.data))) =
        toLowerL (cleanChars sectionText.data) := normalized_lower_cleanChars _
    have hcont : containsL (toLowerL (cleanChars query.data))
        (toLowerL (cleanChars sectionText.data)) = true := by
      by_cases hq : pyWords (toLowerL (cleanChars query.data)) = []
      · rw [hq] at hterms
        rw [← hterms]
        exact containsL_nil _
      · rcases joinSp_infix a _ b hq with ⟨x, y, hxy⟩
        rw [← hsect, hab, hxy, hterms]
        exact containsL_of_parts _ x y
    rw [if_pos hcont]
    have hsome : (phraseIdx (pyWords (toLowerL (cleanChars sectionText.data)))
        (pyWords (toLowerL (cleanChars query.data)))
        (toLowerL (cleanChars query.data))).isSome = true := by
      rw [phraseIdx, List.find?_isSome]
      refine ⟨a.length, ?_, ?_⟩
      · rw [List.mem_range, hab]
        simp only [List.length_append]
        omega
      · rw [hab, List.append_assoc, List.drop_left, List.take_left]
        exact decide_eq_true hterms
    cases hp : phraseIdx (pyWords (toLowerL (cleanChars sectionText.data)))
        (pyWords (toLowerL (cleanChars query.data)))
        (toLowerL (cleanChars query.data)) with
    | none => rw [hp] at hsome; simp at hsome
    | some i => rfl

theorem removeMarkersAux_all_space (fuel : Nat) :
    ∀ l : List Char, (∀ c ∈ l, isPySpace c = true) → removeMarkersAux fuel l = l := by
  induction fuel with
  | zero => intro l _; rfl
  | succ n ih =>
    intro l hl
    match l with
    | [] => rfl
    | c :: cs =>
      have hc : c ≠ '#' := by
        intro h
        have := hl c (by simp)
        rw [h] at this
        simp [isPySpace] at this
      have hnone : tryMarker (c :: cs) = none := by
        rw [tryMarker, if_neg]
        intro hcond
        exact hc hcond.1
      simp only [removeMarkersAux, hnone]
      rw [ih cs (fun x hx => hl x (by simp [hx]))]

theorem pyWordsAcc_all_space (l : List Char) (hl : ∀ c ∈ l, isPySpace c = true) :
    pyWordsAcc l [] = [] := by
  induction l with
  | nil => rfl
  | cons c cs ih =>
    have hc : isPySpace c = true := hl c (by simp)
    simp only [pyWordsAcc, hc, if_true, if_pos rfl]
    exact ih (fun x hx => hl x (by simp [hx]))

theorem cleanChars_all_space (l : List Char) (hl : ∀ c ∈ l, isPySpace c = true) :
    cleanChars l = [] := by
  unfold cleanChars removeMarkersL
  rw [removeMarkersAux_all_space _ l hl]
  unfold pyWords
  rw [pyWordsAcc_all_space l hl]
  rfl

/-- C10: a query that is non-empty but all whitespace always matches a
section with non-empty raw text: the raw-string emptiness guard passes, the
normalised query is empty, the empty phrase is found at word position 0 and
the context window is at most the section's first 10 words, wrapped in
ellipses. -/
theorem search_whitespace_query (sectionText query : String)
    (hq : query ≠ "") (hqs : ∀ c ∈ query.data, isPySpace c = true)
    (hs : sectionText ≠ "") :
    search_text_in_section sectionText query =
      (true, String.mk (['.', '.', '.'] ++
        joinSp ((pyWords (toLowerL (cleanChars sectionText.data))).take 10) ++
        ['.', '.', '.'])) := by
  have hclean : cleanChars query.data = [] := cleanChars_all_space _ hqs
  rw [search_text_in_section, if_neg (not_or.mpr ⟨hs, hq⟩), hclean]
  rw [show toLowerL [] = [] from rfl]
  rw [if_pos (containsL_nil _)]
  rw [show pyWords [] = [] from rfl]
  have hfind : phraseIdx (pyWords (toLowerL (cleanChars sectionText.data))) [] [] =
      some 0 := by
    rw [phraseIdx]
    have hrange : (pyWords (toLowerL (cleanChars sectionText.data))).length + 1 -
        (List.length ([] : List (List Char))) =
        (pyWords (toLowerL (cleanChars sectionText.data))).length + 1 := by simp
    rw [hrange, List.range_succ_eq_map]
    rw [List.find?_cons_of_pos _ (by simp [joinSp])]
  simp only
  rw [hfind]
  simp only [List.length_nil, Nat.add_zero, Nat.zero_sub, List.drop_zero, Nat.sub_zero]
  have htake : (pyWords (toLowerL (cleanChars sectionText.data))).take
      (min (pyWords (toLowerL (cleanChars sectionText.data))).length 10) =
      (pyWords (toLowerL (cleanChars sectionText.data))).take 10 := by
    by_cases hlen : (pyWords (toLowerL (cleanChars sectionText.data))).length ≤ 10
    · rw [min_eq_left hlen, List.take_length, List.take_of_length_le hlen]
    · rw [min_eq_right (by omega)]
  rw [htake]

/-! ### Quality Scorer -/

/-- Python `str.strip()`: remove leading and trailing whitespace. -/
def pyStrip (l : List Char) : List Char :=
  ((l.dropWhile isPySpace).reverse.dropWhile isPySpace).reverse

/-- Sentence-terminating characters, the class `[.!?]` of the sentence
splitting regex. -/
def isPunct (c : Char) : Bool := c = '.' || c = '!' || c = '?'

mutual

/-- State of `re.split(r'[.!?]+', text)` while reading a segment: `cur`
holds the reversed characters of the current piece. -/
def splitPunctRun : List Char → List Char → List (List Char)
  | [], cur => [cur.reverse]
  | c :: cs, cur =>
    if isPunct c then cur.reverse :: splitPunctSkip cs
    else splitPunctRun cs (c :: cur)

/-- State of `re.split(r'[.!?]+', text)` inside a separator run: further
`[.!?]` characters extend the same separator. -/
def splitPunctSkip : List Char → List (List Char)
  | [] => [[]]
  | c :: cs => if isPunct c then splitPunctSkip cs else splitPunctRun cs [c]

end

/-- The sentence list of the Quality Scorer: split on `[.!?]+` runs, strip
each piece, drop empty pieces (`[s.strip() for s in sentences if
s.strip()]`). -/
def sentencesOf (l : List Char) : List (List Char) :=
  ((splitPunctRun l []).map pyStrip).filter (fun s => s ≠ [])

/-- Population mean, as `numpy` computes it over an integer list. -/
def meanQ (l : List ℚ) : ℚ := l.sum / l.length

/-- Population variance (the square of `np.std`). -/
def popVarQ (l : List ℚ) : ℚ := (l.map (fun x => (x - meanQ l) ^ 2)).sum / l.length

/-- Population standard deviation `np.std`, as a real number. -/
noncomputable def npStd (l : List ℚ) : ℝ := Real.sqrt (popVarQ l)

/-- The fixed domain vocabulary `technical_terms` of the Quality Scorer. -/
def technicalTerms : List (List Char) :=
  ["aws", "api", "service", "system", "error", "failure", "impact",
   "resolution", "metrics", "data", "configuration", "outage", "incident",
   "region", "server", "database", "network", "infrastructure", "deployment",
   "monitoring"].map String.data

/-- Factor `sentence_length_var` of the score: the standard deviation of
per-sentence word counts, or 0 when there are not at least two sentences
(`np.std(sentence_lengths) if len(sentence_lengths) > 1 else 0`, with
`len(sentence_lengths) = len(sentences)`). -/
noncomputable def sentenceLengthVar (sentences : List (List Char)) : ℝ :=
  if 1 < sentences.length then
    npStd (sentences.map (fun s => ((pyWords s).length : ℚ)))
  else 0

/-- Factor `word_length_var` of the score: the standard deviation of word
character lengths, or 0 when there are not at least two words. -/
noncomputable def wordLengthVar (words : List (List Char)) : ℝ :=
  if 1 < words.length then npStd (words.map (fun w => (w.length : ℚ))) else 0

/-- Factor `info_density` of the score: distinct words over total words
(`unique_words / len(words) if words else 0`, case-sensitive). -/
noncomputable def infoDensity (words : List (List Char)) : ℝ :=
  if words ≠ [] then (words.dedup.length : ℝ) / (words.length : ℝ) else 0

/-- Factor `tech_term_ratio` of the score: lower-cased words found in the
domain vocabulary, over total words. -/
noncomputable def techTermRatio (words : List (List Char)) : ℝ :=
  if words ≠ [] then
    ((words.countP (fun w => decide (toLowerL w ∈ technicalTerms)) : ℕ) : ℝ) /
      (words.length : ℝ)
  else 0

/-- The Quality Scorer `calculate_text_quality_score` of
`search_root_cause.py`. -/
noncomputable def calculate_text_quality_score (text : String) : ℝ :=
  if text = "" then 0
  else
    let sentences := sentencesOf (cleanChars text.data)
    if sentences = [] then 0
    else
      let words := pyWords (cleanChars text.data)
      0.3 * min 1 (sentenceLengthVar sentences / 10) +
        0.2 * min 1 (wordLengthVar words / 3) +
        0.3 * infoDensity words +
        0.2 * min 1 (techTermRatio words * 5)

theorem min_one_bounds {x : ℝ} (hx : 0 ≤ x) : 0 ≤ min 1 x ∧ min 1 x ≤ 1 :=
  ⟨le_min (by norm_num) hx, min_le_left _ _⟩

theorem sentenceLengthVar_nonneg (sentences : List (List Char)) :
    0 ≤ sentenceLengthVar sentences := by
  rw [sentenceLengthVar]
  split
  · exact Real.sqrt_nonneg _
  · exact le_refl 0

theorem wordLengthVar_nonneg (words : List (List Char)) : 0 ≤ wordLengthVar words := by
  rw [wordLengthVar]
  split
  · exact Real.sqrt_nonneg _
  · exact le_refl 0

theorem infoDensity_bounds (words : List (List Char)) :
    0 ≤ infoDensity words ∧ infoDensity words ≤ 1 := by
  rw [infoDensity]
  split
  · rename_i hne
    have hlen : 0 < (words.length : ℝ) := by
      have : 0 < words.length := List.length_pos.mpr hne
      exact_mod_cast this
    constructor
    · positivity
    · rw [div_le_one hlen]
      have := (List.dedup_sublist words).length_le
      exact_mod_cast this
  · norm_num

theorem techTermRatio_nonneg (words : List (List Char)) : 0 ≤ techTermRatio words := by
  rw [techTermRatio]
  split
  · positivity
  · exact le_refl 0

/-- C8: the Quality Scorer always returns a value in `[0, 1]`; the empty
string scores 0, and any text with no non-empty sentences after splitting
scores 0. -/
theorem quality_score_bounds (text : String) :
    (0 ≤ calculate_text_quality_score text ∧ calculate_text_quality_score text ≤ 1) ∧
      calculate_text_quality_score "" = 0 ∧
      (sentencesOf (cleanChars text.data) = [] →
        calculate_text_quality_score text = 0) := by
  have hempty : calculate_text_quality_score "" = 0 := by
    rw [calculate_text_quality_score, if_pos rfl]
  have hnosent : sentencesOf (cleanChars text.data) = [] →
      calculate_text_quality_score text = 0 := by
    intro h
    rw [calculate_text_quality_score]
    by_cases h1 : text = ""
    · rw [if_pos h1]
    · rw [if_neg h1]
      simp only
      rw [if_pos h]
  refine ⟨?_, hempty, hnosent⟩
  rw [calculate_text_quality_score]
  by_cases h1 : text = ""
  · rw [if_pos h1]; norm_num
  · rw [if_neg h1]
    simp only
    by_cases h2 : sentencesOf (cleanChars text.data) = []
    · rw [if_pos h2]; norm_num
    · rw [if_neg h2]
      have b1 := min_one_bounds
        (div_nonneg (sentenceLengthVar_nonneg (sentencesOf (cleanChars text.data)))
          (by norm_num : (0:ℝ) ≤ 10))
      have b2 := min_one_bounds
        (div_nonneg (wordLengthVar_nonneg (pyWords (cleanChars text.data)))
          (by norm_num : (0:ℝ) ≤ 3))
      have b3 := infoDensity_bounds (pyWords (cleanChars text.data))
      have b4 := min_one_bounds
        (mul_nonneg (techTermRatio_nonneg (pyWords (cleanChars text.data)))
          (by norm_num : (0:ℝ) ≤ 5))
      constructor
      · nlinarith [b1.1, b2.1, b3.1, b4.1]
      · nlinarith [b1.2, b2.2, b3.2, b4.2, b1.1, b2.1, b3.1, b4.1]

/-! ### Date Extractor -/

/-- ASCII digit, the regex class `\d` (ASCII fragment). -/
def isDigitC (c : Char) : Bool := '0' ≤ c && c ≤ '9'

/-- ASCII letter: the class `[a-z]` under `re.IGNORECASE`. -/
def isAlphaC (c : Char) : Bool := ('a' ≤ c && c ≤ 'z') || ('A' ≤ c && c ≤ 'Z')

/-- Word character of the regex `\b` boundary (ASCII fragment of `\w`). -/
def isWordC (c : Char) : Bool := isAlphaC c || isDigitC c || c = '_'

/-- A `\b` boundary holds before a word character when the previous
character (none at line start) is not a word character. -/
def boundaryOK (prev : Option Char) : Bool :=
  match prev with
  | none => true
  | some c => !isWordC c

/-- A `\b` boundary holds after a word character when the next character
(none at line end) is not a word character. -/
def nextNonWord : List Char → Bool
  | [] => true
  | c :: _ => !isWordC c

/-- A calendar date as Python `datetime` carries it. -/
structure Date where
  year : Nat
  month : Nat
  day : Nat
deriving DecidableEq

/-- Gregorian leap-year rule (Python `calendar`/`datetime`). -/
def isLeapYear (y : Nat) : Bool := y % 4 = 0 && (y % 100 ≠ 0 || y % 400 = 0)

/-- Days in a month of a given year. -/
def daysInMonth (y m : Nat) : Nat :=
  if m = 2 then (if isLeapYear y then 29 else 28)
  else if m = 4 ∨ m = 6 ∨ m = 9 ∨ m = 11 then 30
  else 31

/-- Validation done by the `datetime` constructor (and by `strptime`):
`ValueError` — modelled as `none` — unless year, month and day are in
range. -/
def mkDateValid (y m d : Nat) : Option Date :=
  if 1 ≤ y ∧ y ≤ 9999 ∧ 1 ≤ m ∧ m ≤ 12 ∧ 1 ≤ d ∧ d ≤ daysInMonth y m then
    some ⟨y, m, d⟩
  else none

/-- Numeric value of a digit character. -/
def digitVal (c : Char) : Nat := c.toNat - '0'.toNat

/-- Python `int` on a string of digits. -/
def digitsToNat (l : List Char) : Nat := l.foldl (fun acc c => 10 * acc + digitVal c) 0

/-- The month number for a case-insensitive three-letter month prefix
(the alternation `(?:Jan|Feb|...|Dec)` and the `months_map` lookup on
`.lower()[:3]`). -/
def monthOfPrefix (l : List Char) : Option Nat :=
  match toLowerL (l.take 3) with
  | ['j', 'a', 'n'] => some 1
  | ['f', 'e', 'b'] => some 2
  | ['m', 'a', 'r'] => some 3
  | ['a', 'p', 'r'] => some 4
  | ['m', 'a', 'y'] => some 5
  | ['j', 'u', 'n'] => some 6
  | ['j', 'u', 'l'] => some 7
  | ['a', 'u', 'g'] => some 8
  | ['s', 'e', 'p'] => some 9
  | ['o', 'c', 't'] => some 10
  | ['n', 'o', 'v'] => some 11
  | ['d', 'e', 'c'] => some 12
  | _ => none

/-- Case-insensitive three-letter weekday prefix test
(`(?:Mon|Tue|Wed|Thu|Fri|Sat|Sun)`). -/
def isWeekdayPrefix (l : List Char) : Bool :=
  match toLowerL (l.take 3) with
  | ['m', 'o', 'n'] => true
  | ['t', 'u', 'e'] => true
  | ['w', 'e', 'd'] => true
  | ['t', 'h', 'u'] => true
  | ['f', 'r', 'i'] => true
  | ['s', 'a', 't'] => true
  | ['s', 'u', 'n'] => true
  | _ => false

/-- Consume the maximal `[a-z]*` run (case-insensitive) and then one
literal space; the regexes' letter runs are always followed by a literal
space, so the greedy run needs no backtracking. -/
def skipLettersThenSpace (l : List Char) : Option (List Char) :=
  match l.dropWhile isAlphaC with
  | ' ' :: r => some r
  | _ => none

/-- Match `(\d{4})\b` at the head: the year value, the last consumed
character and the rest. -/
def matchYear4 (l : List Char) : Option (Nat × Char × List Char) :=
  match l with
  | y1 :: y2 :: y3 :: y4 :: rest =>
    if isDigitC y1 ∧ isDigitC y2 ∧ isDigitC y3 ∧ isDigitC y4 ∧ nextNonWord rest then
      some (digitsToNat [y1, y2, y3, y4], y4, rest)
    else none
  | _ => none

/-- Match `,? (\d{4})\b` at the head (the greedy `,?` and the no-comma
alternative are distinguished by the first character). -/
def matchCommaSpaceYear (l : List Char) : Option (Nat × Char × List Char) :=
  match l with
  | ',' :: ' ' :: r => matchYear4 r
  | ' ' :: r => matchYear4 r
  | _ => none

/-- Match `(\d{1,2}),? (\d{4})\b` at the head: the greedy `\d{1,2}` tries
two digits and falls back to one. -/
def matchDayYear (l : List Char) : Option (Nat × Nat × Char × List Char) :=
  match l with
  | [] => none
  | c1 :: rest1 =>
    if isDigitC c1 then
      match rest1 with
      | [] => none
      | c2 :: rest2 =>
        if isDigitC c2 then
          match matchCommaSpaceYear rest2 with
          | some (y, lastC, rest) => some (digitsToNat [c1, c2], y, lastC, rest)
          | none =>
            match matchCommaSpaceYear rest1 with
            | some (y, lastC, rest) => some (digitsToNat [c1], y, lastC, rest)
            | none => none
        else
          match matchCommaSpaceYear rest1 with
          | some (y, lastC, rest) => some (digitsToNat [c1], y, lastC, rest)
          | none => none
    else none

/-- Pattern 1, `\b(\d{4}-\d{2}-\d{2})\b`, with the `strptime("%Y-%m-%d")`
conversion of the captured group (`none` on `ValueError`). -/
def tryISO (prev : Option Char) (l : List Char) :
    Option (Option Date × Char × List Char) :=
  if boundaryOK prev then
    match l with
    | y1 :: y2 :: y3 :: y4 :: '-' :: m1 :: m2 :: '-' :: d1 :: d2 :: rest =>
      if isDigitC y1 ∧ isDigitC y2 ∧ isDigitC y3 ∧ isDigitC y4 ∧ isDigitC m1 ∧
          isDigitC m2 ∧ isDigitC d1 ∧ isDigitC d2 ∧ nextNonWord rest then
        some (mkDateValid (digitsToNat [y1, y2, y3, y4]) (digitsToNat [m1, m2])
          (digitsToNat [d1, d2]), d2, rest)
      else none
    | _ => none
  else none

/-- Pattern 2, `\b(?:Jan|...|Dec)[a-z]* (\d{1,2}),? (\d{4})\b`: the two
captured groups are the day and year digits. -/
def tryMonthFirst (prev : Option Char) (l : List Char) :
    Option ((Nat × Nat) × Char × List Char) :=
  if boundaryOK prev then
    match monthOfPrefix l with
    | some _ =>
      match skipLettersThenSpace l with
      | some r1 =>
        match matchDayYear r1 with
        | some (d, y, lastC, rest) => some ((d, y), lastC, rest)
        | none => none
      | none => none
    | none => none
  else none

/-- Match ` (?:Jan|...|Dec)[a-z]* (\d{4})\b` (the tail of pattern 3 after
the day digits; pattern 3 has no optional comma). -/
def matchSpMonthSpYear (l : List Char) : Option (Nat × Char × List Char) :=
  match l with
  | ' ' :: r =>
    match monthOfPrefix r with
    | some _ =>
      match skipLettersThenSpace r with
      | some r2 => matchYear4 r2
      | none => none
    | none => none
  | _ => none

/-- Pattern 3, `\b(\d{1,2}) (?:Jan|...|Dec)[a-z]* (\d{4})\b`. -/
def tryDayFirst (prev : Option Char) (l : List Char) :
    Option ((Nat × Nat) × Char × List Char) :=
  if boundaryOK prev then
    match l with
    | [] => none
    | c1 :: rest1 =>
      if isDigitC c1 then
        match rest1 with
        | [] => none
        | c2 :: rest2 =>
          if isDigitC c2 then
            match matchSpMonthSpYear rest2 with
            | some (y, lastC, rest) => some ((digitsToNat [c1, c2], y), lastC, rest)
            | none =>
              match matchSpMonthSpYear rest1 with
              | some (y, lastC, rest) => some ((digitsToNat [c1], y), lastC, rest)
              | none => none
          else
            match matchSpMonthSpYear rest1 with
            | some (y, lastC, rest) => some ((digitsToNat [c1], y), lastC, rest)
            | none => none
      else none
  else none

/-- Pattern 4,
`\b(?:Mon|...|Sun)[a-z]* (?:Jan|...|Dec)[a-z]* (\d{1,2}),? (\d{4})\b`. -/
def tryWeekdayMonth (prev : Option Char) (l : List Char) :
    Option ((Nat × Nat) × Char × List Char) :=
  if boundaryOK prev then
    if isWeekdayPrefix l then
      match skipLettersThenSpace l with
      | some r1 =>
        match monthOfPrefix r1 with
        | some _ =>
          match skipLettersThenSpace r1 with
          | some r2 =>
            match matchDayYear r2 with
            | some (d, y, lastC, rest) => some ((d, y), lastC, rest)
            | none => none
          | none => none
        | none => none
      | none => none
    else none
  else none

/-- Worker for `re.finditer`: scan left to right, skipping one character on
failure and resuming after a match on success.  The fuel argument
(instantiated with the line length, which bounds the number of steps since
every step consumes at least one character) keeps the recursion
structural. -/
def finditerAux {α : Type} (tryM : Option Char → List Char → Option (α × Char × List Char)) :
    Nat → Option Char → List Char → List α
  | 0, _, _ => []
  | _ + 1, _, [] => []
  | fuel + 1, prev, c :: cs =>
    match tryM prev (c :: cs) with
    | some (a, lastC, rest) => a :: finditerAux tryM fuel (some lastC) rest
    | none => finditerAux tryM fuel (some c) cs

/-- All matches of one pattern over one line, in scan order
(`re.finditer`). -/
def finditer {α : Type} (tryM : Option Char → List Char → Option (α × Char × List Char))
    (l : List Char) : List α :=
  finditerAux tryM l.length none l

/-- The match test for `re.search(r'\b(Jan|...|Dec)[a-z]*\b', line)` at one
position: a month prefix whose whole letter run ends at a `\b` boundary. -/
def tryMonthWord (l : List Char) : Option Nat :=
  match monthOfPrefix l with
  | some m => if nextNonWord (l.dropWhile isAlphaC) then some m else none
  | none => none

/-- Scan for the first month-name word of the line (the `re.search` the
code uses to pick the month for patterns 2-4). -/
def monthSearchAux : Option Char → List Char → Option Nat
  | _, [] => none
  | prev, c :: cs =>
    match (if boundaryOK prev then tryMonthWord (c :: cs) else none) with
    | some m => some m
    | none => monthSearchAux (some c) cs

/-- First month name found anywhere in the line, as a month number
(`months_map[month_match.group(1).lower()[:3]]`). -/
def searchMonthNum (l : List Char) : Option Nat := monthSearchAux none l

/-- Date extraction over a single line: pattern 1 matches are converted
through `strptime`; for patterns 2-4 the day and year come from the match
but the month comes from the first month name found in the line; every
`ValueError` (`none`) is skipped.  The code re-runs the month search for
each match, which is extensionally the same as computing it once per
line. -/
def extractLine (line : List Char) : List Date :=
  let monthM := searchMonthNum line
  let mk : Nat × Nat → Option Date := fun dy =>
    match monthM with
    | some m => mkDateValid dy.2 m dy.1
    | none => none
  (finditer tryISO line).filterMap id ++
    (finditer tryMonthFirst line).filterMap mk ++
    (finditer tryDayFirst line).filterMap mk ++
    (finditer tryWeekdayMonth line).filterMap mk

/-- Python `text.split('\n')`. -/
def splitLinesAcc : List Char → List Char → List (List Char)
  | [], cur => [cur.reverse]
  | c :: cs, cur =>
    if c = '\n' then cur.reverse :: splitLinesAcc cs []
    else splitLinesAcc cs (c :: cur)

/-- The Date Extractor `extract_dates` of `search_root_cause.py`: dates are
collected per line, patterns in order, matches in scan order. -/
def extract_dates (text : String) : List Date :=
  ((splitLinesAcc text.data []).map extractLine).flatten

/-- `get_newest_date`: Python `max` over `datetime` values keeps the first
maximum; comparison of valid dates is their order on the timeline, embedded
through `dateOrdinal`. -/
def daysBeforeMonth (y m : Nat) : Nat :=
  ((List.range (m - 1)).map (fun i => daysInMonth y (i + 1))).sum

/-- Proleptic Gregorian day ordinal of a date (day 1 = 0001-01-01), the
timeline position `datetime` comparisons order by. -/
def dateOrdinal (d : Date) : Nat :=
  365 * (d.year - 1) + (d.year - 1) / 4 - (d.year - 1) / 100 + (d.year - 1) / 400 +
    daysBeforeMonth d.year d.month + d.day

/-- The newest of the extracted dates (`max(dates)` on `datetime` values;
`None` for an empty list, as in `get_newest_date`). -/
def get_newest_date (dates : List Date) : Option Date :=
  match dates with
  | [] => none
  | d :: ds =>
    some (ds.foldl (fun acc x => if dateOrdinal acc < dateOrdinal x then x else acc) d)

/-- Decimal digit character. -/
def digitChar (n : Nat) : Char :=
  match n with
  | 0 => '0' | 1 => '1' | 2 => '2' | 3 => '3' | 4 => '4'
  | 5 => '5' | 6 => '6' | 7 => '7' | 8 => '8' | _ => '9'

/-- Two-digit zero-padded field of `strftime`. -/
def pad2 (n : Nat) : List Char := [digitChar (n / 10 % 10), digitChar (n % 10)]

/-- Four-digit zero-padded field of `strftime`. -/
def pad4 (n : Nat) : List Char :=
  [digitChar (n / 1000 % 10), digitChar (n / 100 % 10), digitChar (n / 10 % 10),
   digitChar (n % 10)]

/-- `newest_date.strftime("%Y-%m-%d")`. -/
def formatDate (d : Date) : String :=
  String.mk (pad4 d.year ++ ('-' :: pad2 d.month) ++ ('-' :: pad2 d.day))

/-- The recency filter `is_within_two_years`:
`date >= datetime.now() - timedelta(days=730)`.  The current instant is the
parameter `now`, a point (possibly fractional) on the day timeline that
`dateOrdinal` embeds dates into. -/
def is_within_two_years (date : Date) (now : ℚ) : Bool :=
  decide ((dateOrdinal date : ℚ) ≥ now - 730)

/-! ### Document Scanner -/

/-- Parsed JSON values (`json.load` output).  Object key lists are in
document order; `json.load` collapses duplicate keys, so keys are assumed
distinct. -/
inductive JsonValue : Type
  | jnull : JsonValue
  | jbool : Bool → JsonValue
  | jnum : ℚ → JsonValue
  | jstr : String → JsonValue
  | jarr : List JsonValue → JsonValue
  | jobj : List (String × JsonValue) → JsonValue

/-- Python truthiness (`if not section_text`) of a JSON-decoded value. -/
def jsonFalsy : JsonValue → Bool
  | .jnull => true
  | .jbool b => !b
  | .jnum q => q = 0
  | .jstr s => s = ""
  | .jarr l => l.isEmpty
  | .jobj l => l.isEmpty

/-- Key lookup in a JSON object (`data['sections']`, `sections.get(...)`);
`none` when the value is not an object or the key is absent. -/
def jsonGet : JsonValue → String → Option JsonValue
  | .jobj l, k => l.lookup k
  | _, _ => none

/-- One `search_text_in_section(section_text, search_text)` call where the
section value comes from JSON: a non-string truthy value reaches
`clean_text` and raises `TypeError`; a falsy one returns no match from the
guard. -/
def searchJ (v : JsonValue) (q : String) : Except String (Bool × String) :=
  match v with
  | .jstr s => .ok (search_text_in_section s q)
  | v => if jsonFalsy v then .ok (false, "") else .error "TypeError"

/-- The section-matching loop of `process_json_files`: every section is
searched in order and the matching ones keep their context snippet. -/
def sectionMatchesOf (q : String) : List (String × JsonValue) →
    Except String (List (String × String))
  | [] => .ok []
  | (name, v) :: rest =>
    match searchJ v q with
    | .error msg => .error msg
    | .ok r =>
      match sectionMatchesOf q rest with
      | .error msg => .error msg
      | .ok tail => .ok (if r.1 then (name, r.2) :: tail else tail)

/-- `extract_dates(sections.get(name, ""))`: the default is the empty
string; a present non-string value raises `TypeError` inside
`extract_dates` (modelled as an error). -/
def extractDatesAt (secs : List (String × JsonValue)) (name : String) :
    Except String (List Date) :=
  match (secs.lookup name).getD (.jstr "") with
  | .jstr s => .ok (extract_dates s)
  | _ => .error "TypeError"

/-- The representative date of a document: newest date extracted from the
"Incident General Information" and "Summary" sections. -/
def repDateOf (secs : List (String × JsonValue)) : Except String (Option Date) :=
  match extractDatesAt secs "Incident General Information" with
  | .error msg => .error msg
  | .ok incidentDates =>
    match extractDatesAt secs "Summary" with
    | .error msg => .error msg
    | .ok summaryDates => .ok (get_newest_date (incidentDates ++ summaryDates))

/-- Per-document word count: `sum(len(clean_text(text).split()) for text in
section_matches.values())` — over the stored context snippets. -/
def wordCountOf (sm : List (String × String)) : Nat :=
  (sm.map (fun p => (pyWords (cleanChars p.2.data)).length)).sum

/-- The score-free part of a scan result: everything `process_json_files`
computes for a matching document except the quality score. -/
structure RawResult where
  filename : String
  dateStr : String
  sectionMatches : List (String × String)
  wordCount : Nat
deriving DecidableEq

/-- Scan of a single corpus entry (one loop iteration of
`process_json_files` after `json.load`): `ok none` means the entry is
skipped, `error` models an uncaught exception that aborts the batch. -/
def processEntryRaw (q : String) (now : ℚ) (entry : String × JsonValue) :
    Except String (Option RawResult) :=
  match jsonGet entry.2 "sections" with
  | none => .ok none
  | some (.jobj secs) =>
    match sectionMatchesOf q secs with
    | .error msg => .error msg
    | .ok sm =>
      if sm = [] then .ok none
      else
        match repDateOf secs with
        | .error msg => .error msg
        | .ok none => .ok none
        | .ok (some d) =>
          if is_within_two_years d now then
            .ok (some ⟨entry.1, formatDate d, sm, wordCountOf sm⟩)
          else .ok none
  | some _ => .error "AttributeError"

/-- Scan of the whole corpus, in directory order; an uncaught exception in
one entry aborts the batch. -/
def processRaw (q : String) (now : ℚ) : List (String × JsonValue) →
    Except String (List RawResult)
  | [] => .ok []
  | e :: rest =>
    match processEntryRaw q now e with
    | .error msg => .error msg
    | .ok r =>
      match processRaw q now rest with
      | .error msg => .error msg
      | .ok rs => .ok (match r with | none => rs | some m => m :: rs)

/-- A scan result (`(filename, date_str, section_matches, quality_score,
word_count)`). -/
structure MatchResult where
  filename : String
  dateStr : String
  sectionMatches : List (String × String)
  qualityScore : ℝ
  wordCount : Nat

/-- `max(...)` over a non-empty list of floats (Python keeps the first of
equal maxima; on `ℝ` the value is the same). -/
noncomputable def maxScoreList : List ℝ → ℝ
  | [] => 0
  | x :: xs => xs.foldl max x

/-- Attach the quality score: `max(calculate_text_quality_score(text) for
text in section_matches.values())`. -/
noncomputable def attachScore (r : RawResult) : MatchResult :=
  ⟨r.filename, r.dateStr, r.sectionMatches,
    maxScoreList (r.sectionMatches.map (fun p => calculate_text_quality_score p.2)),
    r.wordCount⟩

/-- The Document Scanner `process_json_files` of `search_root_cause.py`,
with the corpus (parsed JSON per filename) and the current instant as
explicit inputs.  The quality score is a pure function of the stored
section matches, so it is attached after the score-free scan. -/
noncomputable def process_json_files (q : String) (corpus : List (String × JsonValue))
    (now : ℚ) : Except String (List MatchResult) :=
  (processRaw q now corpus).map (List.map attachScore)

/-! ### Document Selector -/

/-- The order of `sorted(matches, key=lambda x: x[3], reverse=True)`:
`a` comes no later than `b` when its quality score is at least `b`'s. -/
def scoreGE (a b : MatchResult) : Prop := b.qualityScore ≤ a.qualityScore

noncomputable instance : DecidableRel scoreGE := fun _ b => Real.decidableLE b.qualityScore _

instance : IsTotal MatchResult scoreGE := ⟨fun a b => le_total b.qualityScore a.qualityScore⟩

instance : IsTrans MatchResult scoreGE := ⟨fun _ _ _ hab hbc => le_trans hbc hab⟩

/-- Python's `sorted` with `key=lambda x: x[3], reverse=True`: a stable
sort by quality score descending.  A stable sort's output is determined by
the order and the input, so Timsort is embedded as insertion sort with the
total preorder `scoreGE` (ties go after earlier-inserted equals, keeping
scan order). -/
noncomputable def sortByQualityDesc (cands : List MatchResult) : List MatchResult :=
  List.insertionSort scoreGE cands

/-- One iteration of the selector's acceptance loop. -/
def selectStep (maxWords : Nat) (acc : List MatchResult × Nat) (m : MatchResult) :
    List MatchResult × Nat :=
  if acc.2 + m.wordCount ≤ maxWords then (acc.1 ++ [m], acc.2 + m.wordCount) else acc

/-- The accepted results of `select_best_documents`, in acceptance order
(the code accumulates the projected triples; the whole results are kept
here and projected in `select_best_documents`). -/
noncomputable def selectedMatches (cands : List MatchResult) (maxWords : Nat) :
    List MatchResult :=
  ((sortByQualityDesc cands).foldl (selectStep maxWords) ([], 0)).1

/-- The Document Selector `select_best_documents` of `search_root_cause.py`
(the source's default budget is 24000 words). -/
noncomputable def select_best_documents (cands : List MatchResult) (maxWords : Nat) :
    List (String × String × List (String × String)) :=
  (selectedMatches cands maxWords).map (fun m => (m.filename, m.dateStr, m.sectionMatches))

/-- The acceptance loop as a recursion: a candidate that fits is taken, one
that does not is skipped and the scan continues with the later
candidates. -/
def greedySelect (maxWords : Nat) : Nat → List MatchResult → List MatchResult
  | _, [] => []
  | total, m :: rest =>
    if total + m.wordCount ≤ maxWords then
      m :: greedySelect maxWords (total + m.wordCount) rest
    else greedySelect maxWords total rest

open Classical in
/-- The sublist of results holding a given quality score, in order (used to
state sort stability). -/
noncomputable def scoreFilter (q : ℝ) (l : List MatchResult) : List MatchResult :=
  l.filter (fun m => decide (m.qualityScore = q))

theorem selectStep_foldl_invariant (maxWords : Nat) (l : List MatchResult) :
    ∀ sel total, (sel.map MatchResult.wordCount).sum = total → total ≤ maxWords →
      ((l.foldl (selectStep maxWords) (sel, total)).1.map MatchResult.wordCount).sum =
        (l.foldl (selectStep maxWords) (sel, total)).2 ∧
      (l.foldl (selectStep maxWords) (sel, total)).2 ≤ maxWords := by
  induction l with
  | nil => intro sel total h1 h2; exact ⟨h1, h2⟩
  | cons m rest ih =>
    intro sel total h1 h2
    simp only [List.foldl_cons]
    by_cases h : total + m.wordCount ≤ maxWords
    · rw [show selectStep maxWords (sel, total) m = (sel ++ [m], total + m.wordCount) from
        by rw [selectStep, if_pos h]]
      exact ih (sel ++ [m]) (total + m.wordCount) (by simp [h1]) h
    · rw [show selectStep maxWords (sel, total) m = (sel, total) from
        by rw [selectStep, if_neg h]]
      exact ih sel total h1 h2

/-- C4: the cumulative word count of the documents the selector returns
never exceeds the budget: `select_best_documents` projects the accepted
results, whose word counts sum to at most the budget. -/
theorem selector_respects_budget (cands : List MatchResult) (maxWords : Nat) :
    ((selectedMatches cands maxWords).map MatchResult.wordCount).sum ≤ maxWords ∧
      select_best_documents cands maxWords = (selectedMatches cands maxWords).map
        (fun m => (m.filename, m.dateStr, m.sectionMatches)) := by
  refine ⟨?_, rfl⟩
  have h := selectStep_foldl_invariant maxWords (sortByQualityDesc cands) [] 0 rfl
    (Nat.zero_le _)
  rw [selectedMatches, h.1]
  exact h.2

theorem scoreFilter_cons (q : ℝ) (m : MatchResult) (l : List MatchResult) :
    scoreFilter q (m :: l) =
      if m.qualityScore = q then m :: scoreFilter q l else scoreFilter q l := by
  rw [scoreFilter, List.filter_cons]
  by_cases h : m.qualityScore = q
  · rw [if_pos (by simpa using h), if_pos h]; rfl
  · rw [if_neg (by simpa using h), if_neg h]; rfl

theorem scoreFilter_orderedInsert (q : ℝ) (a : MatchResult) (l : List MatchResult) :
    scoreFilter q (List.orderedInsert scoreGE a l) =
      if a.qualityScore = q then a :: scoreFilter q l else scoreFilter q l := by
  induction l with
  | nil =>
    rw [List.orderedInsert, scoreFilter_cons]
  | cons b t ih =>
    rw [List.orderedInsert]
    by_cases hr : scoreGE a b
    · rw [if_pos hr, scoreFilter_cons]
    · rw [if_neg hr, scoreFilter_cons, ih]
      have hlt : a.qualityScore < b.qualityScore := lt_of_not_le hr
      by_cases ha : a.qualityScore = q <;> by_cases hb : b.qualityScore = q
      · exfalso
        rw [ha, ← hb] at hlt
        exact lt_irrefl _ hlt
      · rw [if_neg hb, if_pos ha, if_pos ha, scoreFilter_cons, if_neg hb]
      · rw [if_pos hb, if_neg ha, if_neg ha, scoreFilter_cons, if_pos hb]
      · rw [if_neg hb, if_neg ha, if_neg ha, scoreFilter_cons, if_neg hb]

theorem scoreFilter_insertionSort (q : ℝ) (l : List MatchResult) :
    scoreFilter q (List.insertionSort scoreGE l) = scoreFilter q l := by
  induction l with
  | nil => rfl
  | cons m t ih =>
    rw [List.insertionSort, scoreFilter_orderedInsert, ih, scoreFilter_cons]

theorem foldl_selectStep_eq_greedy (maxWords : Nat) (l : List MatchResult) :
    ∀ sel total, (l.foldl (selectStep maxWords) (sel, total)).1 =
      sel ++ greedySelect maxWords total l := by
  induction l with
  | nil => intro sel total; simp [greedySelect]
  | cons m rest ih =>
    intro sel total
    simp only [List.foldl_cons, greedySelect]
    by_cases h : total + m.wordCount ≤ maxWords
    · rw [show selectStep maxWords (sel, total) m = (sel ++ [m], total + m.wordCount) from
        by rw [selectStep, if_pos h]]
      rw [ih, if_pos h]
      simp
    · rw [show selectStep maxWords (sel, total) m = (sel, total) from
        by rw [selectStep, if_neg h]]
      rw [ih, if_neg h]

/-- C5: the selector's sort is a stable descending sort by quality score
(a permutation of the candidates, sorted by `scoreGE`, with every score
class kept in scan order), and selection is the greedy loop that skips an
over-budget candidate and keeps evaluating the later, lower-scored ones. -/
theorem selector_sort_and_greedy (cands : List MatchResult) (maxWords : Nat) :
    (sortByQualityDesc cands).Perm cands ∧
      (sortByQualityDesc cands).Sorted scoreGE ∧
      (∀ q : ℝ, scoreFilter q (sortByQualityDesc cands) = scoreFilter q cands) ∧
      selectedMatches cands maxWords =
        greedySelect maxWords 0 (sortByQualityDesc cands) := by
  refine ⟨List.perm_insertionSort scoreGE cands,
    List.sorted_insertionSort scoreGE cands,
    fun q => scoreFilter_insertionSort q cands, ?_⟩
  rw [selectedMatches, foldl_selectStep_eq_greedy]
  rfl

theorem processRaw_cons_skip {q : String} {now : ℚ} {e : String × JsonValue}
    (he : processEntryRaw q now e = .ok none) (rest : List (String × JsonValue)) :
    processRaw q now (e :: rest) = processRaw q now rest := by
  rw [processRaw, he]
  cases h : processRaw q now rest <;> rfl

theorem processRaw_skip {q : String} {now : ℚ} {e : String × JsonValue}
    (he : processEntryRaw q now e = .ok none) :
    ∀ pre post, processRaw q now (pre ++ e :: post) = processRaw q now (pre ++ post) := by
  intro pre
  induction pre with
  | nil =>
    intro post
    rw [List.nil_append, List.nil_append, processRaw_cons_skip he]
  | cons x xs ih =>
    intro post
    rw [List.cons_append, List.cons_append, processRaw, processRaw, ih post]

/-- C6: a corpus document with at least one section match is excluded from
the scan results whenever no representative date exists or the
representative date is more than 730 days before the current instant: the
entry contributes nothing, and the scan of any corpus containing it equals
the scan without it. -/
theorem scanner_recency_filter (q : String) (now : ℚ) (fn : String) (data : JsonValue)
    (secs : List (String × JsonValue)) (sm : List (String × String))
    (hsecs : jsonGet data "sections" = some (.jobj secs))
    (hmatch : sectionMatchesOf q secs = .ok sm) (hne : sm ≠ [])
    (hdate : repDateOf secs = .ok none ∨
      ∃ d, repDateOf secs = .ok (some d) ∧ (dateOrdinal d : ℚ) < now - 730) :
    processEntryRaw q now (fn, data) = .ok none ∧
      ∀ pre post, processRaw q now (pre ++ (fn, data) :: post) =
        processRaw q now (pre ++ post) := by
  have hentry : processEntryRaw q now (fn, data) = .ok none := by
    rcases hdate with hnone | ⟨d, hd, hold⟩
    · rw [processEntryRaw]
      simp [hsecs, hmatch, hnone, hne]
    · have hfalse : is_within_two_years d now = false := by
        rw [is_within_two_years, decide_eq_false_iff_not]
        push_neg
        linarith
      rw [processEntryRaw]
      simp [hsecs, hmatch, hd, hne, hfalse]
  exact ⟨hentry, processRaw_skip hentry⟩

/-- Witness for the recency filter: a matching document whose only date is
2020-01-05 (ordinal 737429) is dropped when `now` is the instant 738200,
more than 730 days later. -/
theorem scanner_recency_filter_witness :
    processEntryRaw "alpha" 738200
      ("old.json", .jobj [("sections", .jobj [("Summary", .jstr "alpha 2020-01-05")])]) =
      .ok none := by
  have h := scanner_recency_filter "alpha" 738200 "old.json"
    (.jobj [("sections", .jobj [("Summary", .jstr "alpha 2020-01-05")])])
    [("Summary", .jstr "alpha 2020-01-05")]
    [("Summary", "...alpha 2020-01-05...")]
    rfl rfl (by decide)
    (Or.inr ⟨⟨2020, 1, 5⟩, rfl, by norm_num [dateOrdinal, daysBeforeMonth]⟩)
  exact h.1

theorem processRaw_abort {q : String} {now : ℚ} {e : String × JsonValue} {msg0 : String}
    (he : processEntryRaw q now e = .error msg0) :
    ∀ pre post, ∃ msg, processRaw q now (pre ++ e :: post) = .error msg := by
  intro pre
  induction pre with
  | nil =>
    intro post
    refine ⟨msg0, ?_⟩
    rw [List.nil_append, processRaw, he]
  | cons x xs ih =>
    intro post
    rw [List.cons_append, processRaw]
    cases hx : processEntryRaw q now x with
    | error m => exact ⟨m, rfl⟩
    | ok r =>
      rcases ih post with ⟨m, hm⟩
      rw [hm]
      exact ⟨m, rfl⟩

/-- C7 (amended): an entry that is not a mapping, or lacks a `sections`
key, is silently skipped and the scan continues as if the entry were
absent; but a mapping entry whose `sections` value is present and not
itself a mapping raises an uncaught `AttributeError` that aborts the whole
batch. -/
theorem scanner_shape_handling (q : String) (now : ℚ) (fn : String) (data : JsonValue) :
    (jsonGet data "sections" = none →
      processEntryRaw q now (fn, data) = .ok none ∧
        ∀ pre post, processRaw q now (pre ++ (fn, data) :: post) =
          processRaw q now (pre ++ post)) ∧
    (∀ sv, jsonGet data "sections" = some sv → (∀ secs, sv ≠ .jobj secs) →
      processEntryRaw q now (fn, data) = .error "AttributeError" ∧
        ∀ pre post, ∃ msg, processRaw q now (pre ++ (fn, data) :: post) = .error msg) := by
  constructor
  · intro h
    have hentry : processEntryRaw q now (fn, data) = .ok none := by
      rw [processEntryRaw]
      simp [h]
    exact ⟨hentry, processRaw_skip hentry⟩
  · intro sv hsv hnotobj
    have hentry : processEntryRaw q now (fn, data) = .error "AttributeError" := by
      cases sv with
      | jobj secs => exact absurd rfl (hnotobj secs)
      | jnull => rw [processEntryRaw]; simp [hsv]
      | jbool b => rw [processEntryRaw]; simp [hsv]
      | jnum x => rw [processEntryRaw]; simp [hsv]
      | jstr s => rw [processEntryRaw]; simp [hsv]
      | jarr l => rw [processEntryRaw]; simp [hsv]
    exact ⟨hentry, processRaw_abort hentry⟩

/-- A corpus entry whose `sections` value is a string (not a mapping) makes
the Document Scanner raise `AttributeError` (`.items()` on a `str`), so the
whole batch aborts instead of skipping the entry. -/
theorem scanner_sections_nonmapping_aborts :
    process_json_files "query" [("bad.json", .jobj [("sections", .jstr "oops")])] 0 =
      .error "AttributeError" := by
  rw [process_json_files]
  rw [show processRaw "query" 0 [("bad.json", .jobj [("sections", .jstr "oops")])] =
    .error "AttributeError" from rfl]
  rfl

theorem processEntryRaw_wordCount {q : String} {now : ℚ} {e : String × JsonValue}
    {r : RawResult} (h : processEntryRaw q now e = .ok (some r)) :
    r.wordCount = wordCountOf r.sectionMatches := by
  rw [processEntryRaw] at h
  repeat' split at h
  all_goals simp_all
  subst h
  rfl

theorem processRaw_wordCount (q : String) (now : ℚ) :
    ∀ (corpus : List (String × JsonValue)) (raws : List RawResult),
      processRaw q now corpus = .ok raws →
      ∀ r ∈ raws, r.wordCount = wordCountOf r.sectionMatches := by
  intro corpus
  induction corpus with
  | nil =>
    intro raws h r hr
    rw [processRaw] at h
    injection h with h'
    subst h'
    simp at hr
  | cons e rest ih =>
    intro raws h r hr
    rw [processRaw] at h
    cases he : processEntryRaw q now e with
    | error m => rw [he] at h; simp at h
    | ok ro =>
      rw [he] at h
      cases hrest : processRaw q now rest with
      | error m => rw [hrest] at h; simp at h
      | ok rs =>
        rw [hrest] at h
        injection h with h'
        subst h'
        cases ro with
        | none => exact ih rs hrest r hr
        | some m0 =>
          rcases List.mem_cons.mp hr with hr | hr
          · subst hr; exact processEntryRaw_wordCount he
          · exact ih rs hrest r hr

/-- C1 (amended): every MatchResult the scanner emits carries a quality
score equal to the maximum Quality Scorer score over its stored context
snippets, and a word count equal to the sum of normalised word counts of
those snippets — both computed from `section_matches.values()`, not from
the full section texts. -/
theorem scanner_emits_snippet_scores (q : String) (corpus : List (String × JsonValue))
    (now : ℚ) (res : List MatchResult) (m : MatchResult)
    (hres : process_json_files q corpus now = .ok res) (hm : m ∈ res) :
    m.qualityScore = maxScoreList (m.sectionMatches.map
      (fun p => calculate_text_quality_score p.2)) ∧
    m.wordCount = (m.sectionMatches.map
      (fun p => (pyWords (cleanChars p.2.data)).length)).sum := by
  rw [process_json_files] at hres
  cases hraw : processRaw q now corpus with
  | error msg => rw [hraw] at hres; simp [Except.map] at hres
  | ok raws =>
    rw [hraw] at hres
    have hres' : res = raws.map attachScore := by
      simp [Except.map] at hres
      exact hres.symm
    subst hres'
    rcases List.mem_map.mp hm with ⟨r, hrraws, rfl⟩
    refine ⟨rfl, ?_⟩
    have hw := processRaw_wordCount q now corpus raws hraw r hrraws
    show r.wordCount = (r.sectionMatches.map
      (fun p => (pyWords (cleanChars p.2.data)).length)).sum
    rw [hw, wordCountOf]

/-- Section text used by the C1 analysis: 25 normalised words, matched by
the query "alpha" at word 0, ending in the date 2024-03-15. -/
def c1section : String :=
  "alpha b c d e f g h i j k l m n o p q r s t u v w x 2024-03-15"

/-- The context snippet the Section Matcher stores for `c1section` and the
query "alpha": the match and the ten following words, in ellipses (11
normalised words, against 25 in the full section). -/
def c1snip : String := "...alpha b c d e f g h i j k..."

/-- The sections mapping of the single document. -/
def c1secs : List (String × JsonValue) := [("Summary", .jstr c1section)]

/-- A one-document corpus whose context snippet is shorter than the
matched section. -/
def c1corpus : List (String × JsonValue) :=
  [("doc.json", .jobj [("sections", .jobj c1secs)])]

/-- A current instant on the document's own date (day ordinal of
2024-03-15). -/
def c1now : ℚ := 738960

/-- The score-free scan result for `c1corpus`. -/
def c1raw : RawResult := ⟨"doc.json", "2024-03-15", [("Summary", c1snip)], 11⟩

theorem c1_processRaw : processRaw "alpha" c1now c1corpus = .ok [c1raw] := by
  have hwithin : is_within_two_years ⟨2024, 3, 15⟩ c1now = true := by
    rw [is_within_two_years, decide_eq_true_eq]
    rw [show dateOrdinal ⟨2024, 3, 15⟩ = 738960 from by decide]
    norm_num [c1now]
  have hentry : processEntryRaw "alpha" c1now
      ("doc.json", .jobj [("sections", .jobj c1secs)]) = .ok (some c1raw) := by
    show (if is_within_two_years ⟨2024, 3, 15⟩ c1now = true then
        Except.ok (some ⟨"doc.json", formatDate ⟨2024, 3, 15⟩, [("Summary", c1snip)],
          wordCountOf [("Summary", c1snip)]⟩)
      else Except.ok none) = Except.ok (some c1raw)
    rw [hwithin, if_pos rfl]
    rfl
  rw [show c1corpus = ("doc.json", JsonValue.jobj [("sections", .jobj c1secs)]) :: []
    from rfl]
  rw [processRaw, hentry]
  rfl

/-- C1 fails on the code: on `c1corpus` the emitted word count is 11,
computed over the stored context snippet, while the sum of normalised word
counts over the full matched-section texts (here the one section
`c1section`) is 25. -/
theorem scanner_wordcount_not_full_text :
    (process_json_files "alpha" c1corpus c1now).map (List.map MatchResult.wordCount) =
      .ok [11] ∧
    ([c1section].map (fun t => (pyWords (cleanChars t.data)).length)).sum = 25 ∧
    (11 : Nat) ≠ 25 := by
  refine ⟨?_, by decide, by decide⟩
  rw [process_json_files, c1_processRaw]
  rfl

/-- Witness for the amended C1 at the concrete corpus `c1corpus`. -/
theorem scanner_emits_snippet_scores_witness :
    (attachScore c1raw).qualityScore = maxScoreList ((attachScore c1raw).sectionMatches.map
      (fun p => calculate_text_quality_score p.2)) ∧
    (attachScore c1raw).wordCount = ((attachScore c1raw).sectionMatches.map
      (fun p => (pyWords (cleanChars p.2.data)).length)).sum := by
  have hres : process_json_files "alpha" c1corpus c1now = .ok [attachScore c1raw] := by
    rw [process_json_files, c1_processRaw]
    rfl
  exact scanner_emits_snippet_scores "alpha" c1corpus c1now [attachScore c1raw]
    (attachScore c1raw) hres (by simp)

/-- C2 fails on the code: in the line "Feb 1, 2020 and Mar 20, 2024" the
substring "Mar 20, 2024" matches the month-name form, but the code resolves
the month by re-searching the whole line and takes its first month name
(Feb), returning 2024-02-20; the date 2024-03-20 that the substring denotes
is absent.  Malformed matches (Feb 30) are still skipped without aborting
extraction of the remaining dates. -/
theorem extract_dates_month_from_line :
    extract_dates "Feb 1, 2020 and Mar 20, 2024" =
      [⟨2020, 2, 1⟩, ⟨2024, 2, 20⟩] ∧
    (⟨2024, 3, 20⟩ : Date) ∉ extract_dates "Feb 1, 2020 and Mar 20, 2024" ∧
    extract_dates "Feb 30, 2024 then Mar 1, 2024" = [⟨2024, 2, 1⟩] :=
  ⟨by decide, by decide, by decide⟩

/-- Witness for C10 at the whitespace query " " and the section
"hello world". -/
theorem search_whitespace_query_witness :
    search_text_in_section "hello world" " " = (true, "...hello world...") := by
  have h := search_whitespace_query "hello world" " " (by decide) (by decide) (by decide)
  rw [h]
  rfl
